import Mathlib

/-!
Verification of the quantization core of `mgf-rangecoding` (src/lib.rs).

The source sums a list of probability density functions (`PDF::freq`,
returning `f64`) over the 256-symbol byte alphabet, quantizes the result
into a `u32` frequency table (`PDFSet::finalize`), and inverts the
cumulative table by binary search (`QuantizedPDFSet::find_index`).

Floating-point values are modelled by `F64`: IEEE-754 special values
(`NaN`, `±∞`) are represented explicitly and finite values are carried as
exact rationals.  The IEEE special-value propagation rules (NaN absorbs,
`∞/∞ = NaN`, `0/0 = NaN`, finite`/∞ = 0`, Rust's saturating `as u32` cast
sending NaN and negatives to 0) are modelled exactly; rounding of finite
arithmetic is idealized as exact.  `u32` arithmetic is `Nat` with an
explicit `% 2^32` where the source performs wrapping `u32` operations.
-/

set_option maxRecDepth 8000

/-- Model of an `f64` value: NaN, +∞, −∞, or an exact finite value. -/
inductive F64 where
  | nan : F64
  | inf : F64
  | neginf : F64
  | fin : ℚ → F64
deriving DecidableEq

/-- IEEE `f64` addition on the model (finite addition idealized as exact). -/
def F64.add : F64 → F64 → F64
  | .nan, _ => .nan
  | _, .nan => .nan
  | .inf, .neginf => .nan
  | .neginf, .inf => .nan
  | .inf, _ => .inf
  | _, .inf => .inf
  | .neginf, _ => .neginf
  | _, .neginf => .neginf
  | .fin a, .fin b => .fin (a + b)

/-- IEEE `f64` multiplication on the model (finite case exact). -/
def F64.mul : F64 → F64 → F64
  | .nan, _ => .nan
  | _, .nan => .nan
  | .inf, .inf => .inf
  | .inf, .neginf => .neginf
  | .neginf, .inf => .neginf
  | .neginf, .neginf => .inf
  | .inf, .fin b => if b = 0 then .nan else if 0 < b then .inf else .neginf
  | .fin a, .inf => if a = 0 then .nan else if 0 < a then .inf else .neginf
  | .neginf, .fin b => if b = 0 then .nan else if 0 < b then .neginf else .inf
  | .fin a, .neginf => if a = 0 then .nan else if 0 < a then .neginf else .inf
  | .fin a, .fin b => .fin (a * b)

/-- IEEE `f64` division on the model (finite case exact; division of a
finite value by zero gives a signed infinity, `0/0` gives NaN). -/
def F64.div : F64 → F64 → F64
  | .nan, _ => .nan
  | _, .nan => .nan
  | .inf, .inf => .nan
  | .inf, .neginf => .nan
  | .neginf, .inf => .nan
  | .neginf, .neginf => .nan
  | .inf, .fin b => if 0 ≤ b then .inf else .neginf
  | .neginf, .fin b => if 0 ≤ b then .neginf else .inf
  | .fin _, .inf => .fin 0
  | .fin _, .neginf => .fin 0
  | .fin a, .fin b =>
      if b = 0 then (if a = 0 then .nan else if 0 < a then .inf else .neginf)
      else .fin (a / b)

/-- Rust's saturating `f64 as u32` cast: NaN and negative values go to 0,
values above `u32::MAX` saturate to `u32::MAX`, finite non-negative values
truncate toward zero. -/
def F64.toU32 : F64 → ℕ
  | .nan => 0
  | .inf => 4294967295
  | .neginf => 0
  | .fin a => min (Nat.floor a) 4294967295

/-- A weight that is not negative: the PDF contract (`freq(v) -> f64 ≥ 0`).
NaN and +∞ are not excluded (the source performs no validity check). -/
def F64.Nonneg : F64 → Prop
  | .nan => True
  | .inf => True
  | .neginf => False
  | .fin a => 0 ≤ a

instance : DecidablePred F64.Nonneg := fun x =>
  match x with
  | .nan => .isTrue trivial
  | .inf => .isTrue trivial
  | .neginf => .isFalse id
  | .fin a => inferInstanceAs (Decidable (0 ≤ a))

/-- `u32::MAX - (u8::MAX + 1)`: the normalization capacity `MAX_TOT_FREQ`
of the source's quantization (headroom of 256 for the `+1` floors). -/
def MAX_TOT_FREQ : ℕ := 4294967295 - 256

/-- A PDF is modelled by its `freq` method: symbol value ↦ `f64` weight. -/
abbrev PDFFun := ℕ → F64

/-- `self.pdf_list.iter().map(|p| p.freq(x)).sum::<f64>()`:
left fold of `f64` addition starting at `0.0`. -/
def sumWeights (pdf_list : List PDFFun) (x : ℕ) : F64 :=
  pdf_list.foldl (fun acc p => acc.add (p x)) (F64.fin 0)

/-- The 256-entry list `freq_src` of per-symbol summed weights. -/
def freqSrc (pdf_list : List PDFFun) : List F64 :=
  (List.range 256).map (fun x => sumWeights pdf_list x)

/-- `tot_freq_src`: the fold `fold(0f64, |cum, freq| cum + freq)` over
`freq_src`. -/
def totFreqSrc (pdf_list : List PDFFun) : F64 :=
  (freqSrc pdf_list).foldl F64.add (F64.fin 0)

/-- One quantized count:
`(MAX_TOT_FREQ as f64 * (freq_src[x] / tot_freq_src)) as u32 + 1`,
the `+ 1` being a wrapping `u32` addition. -/
def quantize (fs tot : F64) : ℕ :=
  (((F64.fin (MAX_TOT_FREQ : ℚ)).mul (fs.div tot)).toU32 + 1) % 4294967296

/-- The `.scan(0, ...)` of the source: exclusive prefix sums of the
quantized counts, accumulated with wrapping `u32` addition. -/
def exclScan : List ℕ → ℕ → List ℕ
  | [], _ => []
  | f :: rest, cum => cum :: exclScan rest ((cum + f) % 4294967296)

/-- The frozen table: parallel `u32` vectors `freq` and `cum_freq`. -/
structure QuantizedPDFSet where
  freq : List ℕ
  cum_freq : List ℕ
deriving DecidableEq

/-- `PDFSet::finalize`: aggregate the per-symbol weights, quantize each
into a `u32` count with a `+1` floor, and build the exclusive prefix-sum
table. -/
def finalize (pdf_list : List PDFFun) : QuantizedPDFSet :=
  let freq_src := freqSrc pdf_list
  let tot_freq_src := totFreqSrc pdf_list
  let freq := (List.range 256).map
    (fun x => quantize (freq_src.getD x (F64.fin 0)) tot_freq_src)
  { freq := freq, cum_freq := exclScan freq 0 }

/-- `PModel::c_freq`: `self.freq[index]`. -/
def QuantizedPDFSet.c_freq (q : QuantizedPDFSet) (i : ℕ) : ℕ :=
  q.freq.getD i 0

/-- `PModel::cum_freq`: `self.cum_freq[index]`. -/
def QuantizedPDFSet.cumFreqAt (q : QuantizedPDFSet) (i : ℕ) : ℕ :=
  q.cum_freq.getD i 0

/-- `PModel::total_freq`:
`*self.cum_freq.last().unwrap() + *self.freq.last().unwrap()`
(a `u32` addition, hence the `% 2^32`). -/
def QuantizedPDFSet.total_freq (q : QuantizedPDFSet) : ℕ :=
  (q.cum_freq.getLastD 0 + q.freq.getLastD 0) % 4294967296

/-- The `while left < right` loop of `PModel::find_index`, instrumented to
also return the list of probed indices `mid + 1` (in probe order).  The
residual `rfreq` stands for the value
`(decoder.data() - lower_bound) / range_par_total(total_freq)` computed by
the external decoder. -/
def findIndexLoop (q : QuantizedPDFSet) (rfreq : ℕ) (left right : ℕ) :
    ℕ × List ℕ :=
  if left < right then
    let mid := (left + right) / 2
    let mid_cum := q.cumFreqAt (mid + 1)
    let rest :=
      if mid_cum ≤ rfreq then findIndexLoop q rfreq (mid + 1) right
      else findIndexLoop q rfreq left mid
    (rest.1, (mid + 1) :: rest.2)
  else (left, [])
termination_by right - left
decreasing_by
  · omega
  · omega

/-- `PModel::find_index`: binary search over `[0, 255]` for the symbol
owning the residual. -/
def find_index (q : QuantizedPDFSet) (rfreq : ℕ) : ℕ :=
  (findIndexLoop q rfreq 0 255).1

/-- The indices `mid + 1` probed by `find_index` on residual `rfreq`. -/
def findIndexProbes (q : QuantizedPDFSet) (rfreq : ℕ) : List ℕ :=
  (findIndexLoop q rfreq 0 255).2

/-- Every PDF in the list satisfies the non-negativity contract at every
symbol. -/
def NonnegPDFs (pdf_list : List PDFFun) : Prop :=
  ∀ p ∈ pdf_list, ∀ x, (p x).Nonneg

/-- The rational carried by a finite model value (0 for NaN and ±∞). -/
def F64.val : F64 → ℚ
  | .fin a => a
  | _ => 0

/-- The count that `finalize` assigns to symbol `x`. -/
def quantizedCount (pdf_list : List PDFFun) (x : ℕ) : ℕ :=
  quantize (sumWeights pdf_list x) (totFreqSrc pdf_list)

/-- A PDF that is zero everywhere (a degenerate density). -/
def zeroPdf : PDFFun := fun _ => F64.fin 0

/-- A PDF putting all its mass on symbol 0. -/
def pointMassPdf : PDFFun := fun x => if x = 0 then F64.fin 1 else F64.fin 0

/-- A PDF whose weight at symbol 0 is `+∞` (a non-finite density). -/
def infPdf : PDFFun := fun x => if x = 0 then F64.inf else F64.fin 0

/-! ## Basic algebra of the `F64` model -/

lemma F64.nonneg_fin {a : ℚ} : (F64.fin a).Nonneg ↔ 0 ≤ a := by
  simp [F64.Nonneg]

lemma F64.val_fin (a : ℚ) : (F64.fin a).val = a := rfl

lemma F64.add_nan_left (x : F64) : F64.add .nan x = .nan := by
  cases x <;> rfl

lemma F64.add_nan_right (x : F64) : F64.add x .nan = .nan := by
  cases x <;> rfl

lemma F64.add_fin_fin (a b : ℚ) : F64.add (.fin a) (.fin b) = .fin (a + b) := rfl

lemma F64.add_nonneg {a b : F64} (ha : a.Nonneg) (hb : b.Nonneg) :
    (a.add b).Nonneg := by
  cases a <;> cases b <;> simp_all [F64.add, F64.Nonneg]
  positivity

lemma foldl_add_nan (l : List F64) : l.foldl F64.add .nan = .nan := by
  induction l with
  | nil => rfl
  | cons a l ih => rw [List.foldl_cons, F64.add_nan_left, ih]

lemma foldl_add_inf (l : List F64) :
    l.foldl F64.add .inf = .inf ∨ l.foldl F64.add .inf = .nan := by
  induction l with
  | nil => exact Or.inl rfl
  | cons a l ih =>
    rw [List.foldl_cons]
    cases a with
    | nan => rw [show F64.add .inf .nan = .nan from rfl, foldl_add_nan]; exact Or.inr rfl
    | inf => exact ih
    | neginf => rw [show F64.add .inf .neginf = .nan from rfl, foldl_add_nan]; exact Or.inr rfl
    | fin a => exact ih

lemma foldl_add_neginf (l : List F64) :
    l.foldl F64.add .neginf = .neginf ∨ l.foldl F64.add .neginf = .nan := by
  induction l with
  | nil => exact Or.inl rfl
  | cons a l ih =>
    rw [List.foldl_cons]
    cases a with
    | nan => rw [show F64.add .neginf .nan = .nan from rfl, foldl_add_nan]; exact Or.inr rfl
    | inf => rw [show F64.add .neginf .inf = .nan from rfl, foldl_add_nan]; exact Or.inr rfl
    | neginf => exact ih
    | fin a => exact ih

/-- If a left fold of `F64.add` starting from a finite value produces a
finite value, every summand was finite and the result is the exact sum. -/
lemma foldl_add_eq_fin :
    ∀ (l : List F64) (c t : ℚ), l.foldl F64.add (F64.fin c) = F64.fin t →
      (∀ a ∈ l, ∃ v : ℚ, a = F64.fin v) ∧ c + (l.map F64.val).sum = t := by
  intro l
  induction l with
  | nil =>
    intro c t h
    simp only [List.foldl_nil] at h
    cases h
    simp
  | cons a l ih =>
    intro c t h
    rw [List.foldl_cons] at h
    cases a with
    | nan => rw [F64.add_nan_right, foldl_add_nan] at h; cases h
    | inf =>
      rw [show F64.add (.fin c) .inf = .inf from rfl] at h
      rcases foldl_add_inf l with h' | h' <;> rw [h'] at h <;> cases h
    | neginf =>
      rw [show F64.add (.fin c) .neginf = .neginf from rfl] at h
      rcases foldl_add_neginf l with h' | h' <;> rw [h'] at h <;> cases h
    | fin a =>
      rw [F64.add_fin_fin] at h
      obtain ⟨hall, hsum⟩ := ih (c + a) t h
      refine ⟨?_, ?_⟩
      · intro b hb
        rcases List.mem_cons.mp hb with rfl | hb
        · exact ⟨a, rfl⟩
        · exact hall b hb
      · simp only [List.map_cons, List.sum_cons, F64.val]
        linarith

/-- Conversely, a fold of finite values computes the exact sum. -/
lemma foldl_add_of_all_fin :
    ∀ (l : List F64) (c : ℚ), (∀ a ∈ l, ∃ v : ℚ, a = F64.fin v) →
      l.foldl F64.add (F64.fin c) = F64.fin (c + (l.map F64.val).sum) := by
  intro l
  induction l with
  | nil => intro c _; simp
  | cons a l ih =>
    intro c hall
    obtain ⟨v, rfl⟩ := hall a (List.mem_cons_self a l)
    rw [List.foldl_cons, F64.add_fin_fin,
      ih (c + v) (fun b hb => hall b (List.mem_cons_of_mem _ hb))]
    simp only [List.map_cons, List.sum_cons, F64.val]
    ring_nf

/-! ## List access helpers -/

lemma getD_map_range {α : Type} (f : ℕ → α) (d : α) {x n : ℕ} (hx : x < n) :
    ((List.range n).map f).getD x d = f x := by
  rw [List.getD_eq_getElem?_getD, List.getElem?_map, List.getElem?_range hx]
  rfl

lemma getLastD_eq_getD (l : List ℕ) (d : ℕ) : l.getLastD d = l.getD (l.length - 1) d := by
  rw [List.getLastD_eq_getLast?, List.getLast?_eq_getElem?, List.getD_eq_getElem?_getD]

lemma sum_map_add_one (l : List ℕ) (f : ℕ → ℕ) :
    (l.map (fun x => f x + 1)).sum = (l.map f).sum + l.length := by
  induction l with
  | nil => rfl
  | cons a l ih => simp [ih]; omega

lemma sum_floor_le_floor_sum :
    ∀ l : List ℚ, (∀ q ∈ l, 0 ≤ q) → ((l.map Nat.floor).sum) ≤ Nat.floor l.sum := by
  intro l
  induction l with
  | nil => intro _; simp
  | cons a l ih =>
    intro h
    have ha : 0 ≤ a := h a (List.mem_cons_self a l)
    have hl : ∀ q ∈ l, 0 ≤ q := fun q hq => h q (List.mem_cons_of_mem _ hq)
    have hs : 0 ≤ l.sum := List.sum_nonneg hl
    simp only [List.map_cons, List.sum_cons]
    have h2 : ((List.map Nat.floor l).sum : ℚ) ≤ l.sum := by
      calc ((List.map Nat.floor l).sum : ℚ) ≤ (Nat.floor l.sum : ℚ) := by
            exact_mod_cast ih hl
        _ ≤ l.sum := Nat.floor_le hs
    have h1 : (((Nat.floor a : ℕ) + (List.map Nat.floor l).sum : ℕ) : ℚ) ≤ a + l.sum := by
      have := Nat.floor_le ha
      push_cast
      push_cast at h2
      linarith
    exact Nat.le_floor h1

/-! ## Quantization lemmas -/

lemma quantize_tot_nan (fs : F64) : quantize fs .nan = 1 := by
  cases fs <;> rfl

lemma quantize_tot_inf (fs : F64) : quantize fs .inf = 1 := by
  cases fs <;> simp [quantize, F64.div, F64.mul, F64.toU32]

lemma quantize_tot_neginf (fs : F64) : quantize fs .neginf = 1 := by
  cases fs <;> simp [quantize, F64.div, F64.mul, F64.toU32]

lemma quantize_zero_zero : quantize (.fin 0) (.fin 0) = 1 := by
  simp [quantize, F64.div, F64.mul, F64.toU32]

lemma MAX_TOT_FREQ_eq : MAX_TOT_FREQ = 4294967039 := by norm_num [MAX_TOT_FREQ]

lemma floor_cap_mul_ratio_le {v t : ℚ} (hv : 0 ≤ v) (hvt : v ≤ t) (ht : 0 < t) :
    Nat.floor ((MAX_TOT_FREQ : ℚ) * (v / t)) ≤ MAX_TOT_FREQ := by
  have hr : v / t ≤ 1 := (div_le_one ht).mpr hvt
  have h1 : (MAX_TOT_FREQ : ℚ) * (v / t) ≤ (MAX_TOT_FREQ : ℚ) := by
    nlinarith [div_nonneg hv ht.le]
  calc Nat.floor ((MAX_TOT_FREQ : ℚ) * (v / t)) ≤ Nat.floor ((MAX_TOT_FREQ : ℚ)) :=
        Nat.floor_le_floor h1
    _ = MAX_TOT_FREQ := Nat.floor_natCast _

lemma quantize_fin_pos {v t : ℚ} (hv : 0 ≤ v) (hvt : v ≤ t) (ht : 0 < t) :
    quantize (.fin v) (.fin t) = Nat.floor ((MAX_TOT_FREQ : ℚ) * (v / t)) + 1 := by
  have ht' : t ≠ 0 := ne_of_gt ht
  have hfl := floor_cap_mul_ratio_le hv hvt ht
  have hM : MAX_TOT_FREQ = 4294967039 := MAX_TOT_FREQ_eq
  have hdiv : (F64.fin v).div (F64.fin t) = F64.fin (v / t) := by
    simp [F64.div, ht']
  have hmul : (F64.fin (MAX_TOT_FREQ : ℚ)).mul (F64.fin (v / t)) =
      F64.fin ((MAX_TOT_FREQ : ℚ) * (v / t)) := rfl
  simp only [quantize, hdiv, hmul, F64.toU32]
  have hmin : min (Nat.floor ((MAX_TOT_FREQ : ℚ) * (v / t))) 4294967295 =
      Nat.floor ((MAX_TOT_FREQ : ℚ) * (v / t)) := min_eq_left (by omega)
  rw [hmin, Nat.mod_eq_of_lt (by omega)]

/-! ## Aggregation lemmas -/

lemma sumWeights_nonneg {pdf_list : List PDFFun} (hnn : NonnegPDFs pdf_list)
    (x : ℕ) : (sumWeights pdf_list x).Nonneg := by
  rw [sumWeights]
  have : ∀ (l : List PDFFun) (acc : F64), (∀ p ∈ l, ∀ y, (p y).Nonneg) →
      acc.Nonneg → (l.foldl (fun acc p => acc.add (p x)) acc).Nonneg := by
    intro l
    induction l with
    | nil => intro acc _ hacc; exact hacc
    | cons p l ih =>
      intro acc hl hacc
      rw [List.foldl_cons]
      exact ih _ (fun q hq y => hl q (List.mem_cons_of_mem _ hq) y)
        (F64.add_nonneg hacc (hl p (List.mem_cons_self p l) x))
  exact this pdf_list (F64.fin 0) hnn (by norm_num [F64.Nonneg])

lemma freqSrc_length (pdf_list : List PDFFun) : (freqSrc pdf_list).length = 256 := by
  simp [freqSrc]

lemma freqSrc_getD {pdf_list : List PDFFun} {x : ℕ} (hx : x < 256) :
    (freqSrc pdf_list).getD x (F64.fin 0) = sumWeights pdf_list x :=
  getD_map_range _ _ hx

lemma freqSrc_mem_nonneg {pdf_list : List PDFFun} (hnn : NonnegPDFs pdf_list) :
    ∀ a ∈ freqSrc pdf_list, a.Nonneg := by
  intro a ha
  rw [freqSrc] at ha
  obtain ⟨x, _, rfl⟩ := List.mem_map.mp ha
  exact sumWeights_nonneg hnn x

set_option maxRecDepth 4000 in
lemma totFreqSrc_nonneg {pdf_list : List PDFFun} (hnn : NonnegPDFs pdf_list) :
    (totFreqSrc pdf_list).Nonneg := by
  rw [totFreqSrc]
  have : ∀ (l : List F64) (acc : F64), (∀ a ∈ l, a.Nonneg) → acc.Nonneg →
      (l.foldl F64.add acc).Nonneg := by
    intro l
    induction l with
    | nil => intro acc _ hacc; exact hacc
    | cons a l ih =>
      intro acc hl hacc
      rw [List.foldl_cons]
      exact ih _ (fun b hb => hl b (List.mem_cons_of_mem _ hb))
        (F64.add_nonneg hacc (hl a (List.mem_cons_self a l)))
  exact this (freqSrc pdf_list) (F64.fin 0) (freqSrc_mem_nonneg hnn) (le_refl (0 : ℚ))

/-- When the fold of the weights is a finite total `t`, every per-symbol
sum is finite and the per-symbol values add up to exactly `t`. -/
lemma totFreqSrc_fin {pdf_list : List PDFFun} {t : ℚ}
    (h : totFreqSrc pdf_list = F64.fin t) :
    (∀ a ∈ freqSrc pdf_list, ∃ v : ℚ, a = F64.fin v) ∧
      ((freqSrc pdf_list).map F64.val).sum = t := by
  rw [totFreqSrc] at h
  obtain ⟨hall, hsum⟩ := foldl_add_eq_fin _ 0 t h
  exact ⟨hall, by linarith⟩

/-! ## The shape of the finalized table -/

lemma finalize_freq_eq (pdf_list : List PDFFun) :
    (finalize pdf_list).freq = (List.range 256).map (quantizedCount pdf_list) := by
  rw [finalize]
  apply List.map_congr_left
  intro x hx
  rw [quantizedCount, freqSrc_getD (List.mem_range.mp hx)]

lemma finalize_freq_length (pdf_list : List PDFFun) :
    (finalize pdf_list).freq.length = 256 := by
  rw [finalize_freq_eq]
  simp

lemma finalize_c_freq {pdf_list : List PDFFun} {x : ℕ} (hx : x < 256) :
    (finalize pdf_list).c_freq x = quantizedCount pdf_list x := by
  rw [QuantizedPDFSet.c_freq, finalize_freq_eq]
  exact getD_map_range _ _ hx

lemma finalize_cum_freq (pdf_list : List PDFFun) :
    (finalize pdf_list).cum_freq = exclScan (finalize pdf_list).freq 0 := rfl

/-! ## Prefix-sum lemmas -/

lemma exclScan_length : ∀ (l : List ℕ) (c : ℕ), (exclScan l c).length = l.length := by
  intro l
  induction l with
  | nil => intro c; rfl
  | cons f rest ih => intro c; simp [exclScan, ih]

/-- As long as the true running sum stays below `2^32`, the wrapping scan
computes exact exclusive prefix sums. -/
lemma exclScan_getD :
    ∀ (l : List ℕ) (c : ℕ), c + l.sum < 4294967296 →
      ∀ i < l.length, (exclScan l c).getD i 0 = c + (l.take i).sum := by
  intro l
  induction l with
  | nil => intro c _ i hi; simp at hi
  | cons f rest ih =>
    intro c hc i hi
    rw [exclScan]
    cases i with
    | zero => simp
    | succ j =>
      rw [List.getD_cons_succ]
      have hcf : c + f < 4294967296 := by
        have : 0 ≤ rest.sum := Nat.zero_le _
        simp only [List.sum_cons] at hc
        omega
      rw [Nat.mod_eq_of_lt hcf]
      have hrec := ih (c + f) (by simp only [List.sum_cons] at hc; omega) j
        (by simpa using hi)
      rw [hrec]
      simp [List.sum_cons]
      omega

/-! ## Count bounds -/

set_option maxRecDepth 4000 in
lemma quantizedCount_bounds {pdf_list : List PDFFun} (hnn : NonnegPDFs pdf_list)
    {x : ℕ} (hx : x < 256) :
    1 ≤ quantizedCount pdf_list x ∧ quantizedCount pdf_list x ≤ MAX_TOT_FREQ + 1 := by
  rw [quantizedCount]
  rcases htot : totFreqSrc pdf_list with _ | _ | _ | t
  · rw [quantize_tot_nan]; omega
  · rw [quantize_tot_inf]; omega
  · rw [quantize_tot_neginf]; omega
  · have ht0 : 0 ≤ t := by
      have h := totFreqSrc_nonneg hnn
      rw [htot] at h
      exact F64.nonneg_fin.mp h
    obtain ⟨hall, hsum⟩ := totFreqSrc_fin htot
    have hmem : sumWeights pdf_list x ∈ freqSrc pdf_list := by
      rw [freqSrc]
      exact List.mem_map.mpr ⟨x, List.mem_range.mpr hx, rfl⟩
    obtain ⟨v, hv⟩ := hall _ hmem
    have hv0 : 0 ≤ v := by
      have h := sumWeights_nonneg hnn x
      rw [hv] at h
      exact F64.nonneg_fin.mp h
    have hvle : v ≤ t := by
      rw [← hsum]
      have : v ∈ (freqSrc pdf_list).map F64.val := by
        apply List.mem_map.mpr
        exact ⟨sumWeights pdf_list x, hmem, by rw [hv]; rfl⟩
      apply List.single_le_sum _ _ this
      intro q hq
      obtain ⟨a, ha, rfl⟩ := List.mem_map.mp hq
      obtain ⟨w, rfl⟩ := hall a ha
      have := freqSrc_mem_nonneg hnn _ ha
      exact this
    rw [hv]
    rcases eq_or_lt_of_le ht0 with rfl | htpos
    · have hv00 : v = 0 := le_antisymm hvle hv0
      rw [hv00, quantize_zero_zero]
      omega
    · rw [quantize_fin_pos hv0 hvle htpos]
      have := floor_cap_mul_ratio_le hv0 hvle htpos
      omega

/-! ## Sum bounds -/

lemma sum_map_one (l : List ℕ) : (l.map (fun _ => 1)).sum = l.length := by
  induction l with
  | nil => rfl
  | cons a l ih => simp [ih]; omega

lemma sum_map_range_one {f : ℕ → ℕ} (h : ∀ x < 256, f x = 1) :
    ((List.range 256).map f).sum = 256 := by
  have he : (List.range 256).map f = (List.range 256).map (fun _ => 1) :=
    List.map_congr_left (fun x hx => h x (List.mem_range.mp hx))
  rw [he, sum_map_one, List.length_range]

lemma sum_map_mul_left (l : List ℕ) (f : ℕ → ℚ) (a : ℚ) :
    (l.map (fun x => a * f x)).sum = a * (l.map f).sum := by
  induction l with
  | nil => simp
  | cons b l ih => simp [ih]; ring

lemma quantizedCount_one_of_tot_nonfin {pdf_list : List PDFFun}
    (htot : totFreqSrc pdf_list = F64.nan ∨ totFreqSrc pdf_list = F64.inf ∨
      totFreqSrc pdf_list = F64.neginf) (x : ℕ) :
    quantizedCount pdf_list x = 1 := by
  rcases htot with h | h | h <;> rw [quantizedCount, h]
  · exact quantize_tot_nan _
  · exact quantize_tot_inf _
  · exact quantize_tot_neginf _

lemma sumWeights_val_fin {pdf_list : List PDFFun} {t : ℚ}
    (htot : totFreqSrc pdf_list = F64.fin t) {x : ℕ} (hx : x < 256) :
    sumWeights pdf_list x = F64.fin (F64.val (sumWeights pdf_list x)) := by
  obtain ⟨hall, _⟩ := totFreqSrc_fin htot
  obtain ⟨v, hv⟩ := hall _ (by
    rw [freqSrc]
    exact List.mem_map.mpr ⟨x, List.mem_range.mpr hx, rfl⟩)
  rw [hv]
  rfl

lemma sumWeights_val_sum {pdf_list : List PDFFun} {t : ℚ}
    (htot : totFreqSrc pdf_list = F64.fin t) :
    ((List.range 256).map (fun x => F64.val (sumWeights pdf_list x))).sum = t := by
  obtain ⟨_, hsum⟩ := totFreqSrc_fin htot
  rw [← hsum, freqSrc, List.map_map]
  rfl

lemma sumWeights_val_nonneg {pdf_list : List PDFFun} (hnn : NonnegPDFs pdf_list)
    {t : ℚ} (htot : totFreqSrc pdf_list = F64.fin t) {x : ℕ} (hx : x < 256) :
    0 ≤ F64.val (sumWeights pdf_list x) := by
  apply F64.nonneg_fin.mp
  rw [← sumWeights_val_fin htot hx]
  exact sumWeights_nonneg hnn x

lemma sumWeights_val_le_tot {pdf_list : List PDFFun} (hnn : NonnegPDFs pdf_list)
    {t : ℚ} (htot : totFreqSrc pdf_list = F64.fin t) {x : ℕ} (hx : x < 256) :
    F64.val (sumWeights pdf_list x) ≤ t := by
  rw [← sumWeights_val_sum htot]
  apply List.single_le_sum
  · intro q hq
    obtain ⟨y, hy, rfl⟩ := List.mem_map.mp hq
    exact sumWeights_val_nonneg hnn htot (List.mem_range.mp hy)
  · exact List.mem_map.mpr ⟨x, List.mem_range.mpr hx, rfl⟩

lemma quantizedCount_one_of_tot_zero {pdf_list : List PDFFun}
    (hnn : NonnegPDFs pdf_list) (htot : totFreqSrc pdf_list = F64.fin 0)
    {x : ℕ} (hx : x < 256) : quantizedCount pdf_list x = 1 := by
  have hle : F64.val (sumWeights pdf_list x) ≤ 0 := sumWeights_val_le_tot hnn htot hx
  have h0 : F64.val (sumWeights pdf_list x) = 0 :=
    le_antisymm hle (sumWeights_val_nonneg hnn htot hx)
  rw [quantizedCount, htot, sumWeights_val_fin htot hx, h0, quantize_zero_zero]

lemma sum_quantizedCount_le {pdf_list : List PDFFun} (hnn : NonnegPDFs pdf_list) :
    ((List.range 256).map (quantizedCount pdf_list)).sum ≤ 4294967295 := by
  rcases htot : totFreqSrc pdf_list with _ | _ | _ | t
  · rw [sum_map_range_one
      (fun x _ => quantizedCount_one_of_tot_nonfin (Or.inl htot) x)]
    norm_num
  · rw [sum_map_range_one
      (fun x _ => quantizedCount_one_of_tot_nonfin (Or.inr (Or.inl htot)) x)]
    norm_num
  · rw [sum_map_range_one
      (fun x _ => quantizedCount_one_of_tot_nonfin (Or.inr (Or.inr htot)) x)]
    norm_num
  · have ht0 : 0 ≤ t := by
      have h := totFreqSrc_nonneg hnn
      rw [htot] at h
      exact F64.nonneg_fin.mp h
    rcases eq_or_lt_of_le ht0 with rfl | htpos
    · rw [sum_map_range_one (fun x hx => quantizedCount_one_of_tot_zero hnn htot hx)]
      norm_num
    · have hq : ∀ x ∈ List.range 256, quantizedCount pdf_list x =
          Nat.floor ((MAX_TOT_FREQ : ℚ) * (F64.val (sumWeights pdf_list x) / t)) + 1 := by
        intro x hx
        have hx' := List.mem_range.mp hx
        rw [quantizedCount, htot, sumWeights_val_fin htot hx',
          quantize_fin_pos (sumWeights_val_nonneg hnn htot hx')
            (sumWeights_val_le_tot hnn htot hx') htpos]
        simp [F64.val_fin]
      rw [List.map_congr_left hq, sum_map_add_one, List.length_range]
      have hM : MAX_TOT_FREQ = 4294967039 := MAX_TOT_FREQ_eq
      have hfl : ((List.range 256).map (fun x =>
          Nat.floor ((MAX_TOT_FREQ : ℚ) * (F64.val (sumWeights pdf_list x) / t)))).sum
          ≤ MAX_TOT_FREQ := by
        have hnonneg : ∀ q ∈ (List.range 256).map (fun x =>
            (MAX_TOT_FREQ : ℚ) * (F64.val (sumWeights pdf_list x) / t)), 0 ≤ q := by
          intro q hq'
          obtain ⟨y, hy, rfl⟩ := List.mem_map.mp hq'
          have := sumWeights_val_nonneg hnn htot (List.mem_range.mp hy)
          positivity
        have h2 := sum_floor_le_floor_sum _ hnonneg
        rw [List.map_map] at h2
        have h3 : ((List.range 256).map (fun x =>
            (MAX_TOT_FREQ : ℚ) * (F64.val (sumWeights pdf_list x) / t))).sum
            = (MAX_TOT_FREQ : ℚ) := by
          have hcg : ∀ x ∈ List.range 256,
              (MAX_TOT_FREQ : ℚ) * (F64.val (sumWeights pdf_list x) / t) =
              ((MAX_TOT_FREQ : ℚ) / t) * F64.val (sumWeights pdf_list x) := by
            intro x _
            ring
          rw [List.map_congr_left hcg, sum_map_mul_left, sumWeights_val_sum htot]
          field_simp
        rw [h3, Nat.floor_natCast] at h2
        simpa [Function.comp] using h2
      omega

/-! ## Cumulative table lemmas -/

lemma sum_take_succ (l : List ℕ) (n : ℕ) (h : n < l.length) :
    (l.take (n + 1)).sum = (l.take n).sum + l.getD n 0 := by
  rw [List.take_succ, List.sum_append, List.getElem?_eq_getElem h,
    List.getD_eq_getElem?_getD, List.getElem?_eq_getElem h]
  rfl

lemma sum_take_succ_ge (l : List ℕ) (n : ℕ) : (l.take n).sum ≤ (l.take (n + 1)).sum := by
  by_cases h : n < l.length
  · rw [sum_take_succ l n h]
    omega
  · rw [List.take_of_length_le (by omega), List.take_of_length_le (by omega)]

lemma sum_take_mono (l : List ℕ) {i j : ℕ} (hij : i ≤ j) :
    (l.take i).sum ≤ (l.take j).sum := by
  induction j with
  | zero =>
    have h0 : i = 0 := by omega
    subst h0
    exact le_refl _
  | succ m ih =>
    rcases Nat.lt_or_ge i (m + 1) with h | h
    · exact le_trans (ih (by omega)) (sum_take_succ_ge l m)
    · have he : i = m + 1 := by omega
      subst he
      exact le_refl _

lemma sum_take_le_sum (l : List ℕ) (i : ℕ) : (l.take i).sum ≤ l.sum := by
  have := sum_take_mono l (le_refl l.length)
  calc (l.take i).sum ≤ (l.take (max i l.length)).sum :=
        sum_take_mono l (le_max_left _ _)
    _ = l.sum := by rw [List.take_of_length_le (le_max_right _ _)]

/-- The sum of all 256 quantized counts of the finalized table. -/
lemma finalize_freq_sum (pdf_list : List PDFFun) :
    (finalize pdf_list).freq.sum = ((List.range 256).map (quantizedCount pdf_list)).sum := by
  rw [finalize_freq_eq]

lemma finalize_freq_sum_le {pdf_list : List PDFFun} (hnn : NonnegPDFs pdf_list) :
    (finalize pdf_list).freq.sum ≤ 4294967295 := by
  rw [finalize_freq_sum]
  exact sum_quantizedCount_le hnn

lemma finalize_cumFreqAt_of_sum_le {pdf_list : List PDFFun}
    (hle : (finalize pdf_list).freq.sum ≤ 4294967295) {i : ℕ} (hi : i < 256) :
    (finalize pdf_list).cumFreqAt i = ((finalize pdf_list).freq.take i).sum := by
  rw [QuantizedPDFSet.cumFreqAt, finalize_cum_freq]
  have h := exclScan_getD (finalize pdf_list).freq 0 (by omega) i
    (by rw [finalize_freq_length]; omega)
  rw [h]
  omega

lemma finalize_total_freq_of_sum_le {pdf_list : List PDFFun}
    (hle : (finalize pdf_list).freq.sum ≤ 4294967295) :
    (finalize pdf_list).total_freq = (finalize pdf_list).freq.sum := by
  have hlen : (finalize pdf_list).freq.length = 256 := finalize_freq_length pdf_list
  have hslen : (finalize pdf_list).cum_freq.length = 256 := by
    rw [finalize_cum_freq, exclScan_length, hlen]
  rw [QuantizedPDFSet.total_freq, getLastD_eq_getD, getLastD_eq_getD, hlen, hslen]
  simp only [show (256 - 1 : ℕ) = 255 from rfl]
  have hcum : (finalize pdf_list).cum_freq.getD 255 0 =
      ((finalize pdf_list).freq.take 255).sum := by
    have h := finalize_cumFreqAt_of_sum_le hle (show 255 < 256 by omega)
    rw [QuantizedPDFSet.cumFreqAt] at h
    exact h
  have hsum : ((finalize pdf_list).freq.take 255).sum +
      (finalize pdf_list).freq.getD 255 0 = (finalize pdf_list).freq.sum := by
    have h := sum_take_succ (finalize pdf_list).freq 255 (by omega)
    rw [← h, show (255 : ℕ) + 1 = 256 from rfl, ← hlen, List.take_length]
  simp only [hcum]
  rw [Nat.mod_eq_of_lt (by omega)]
  omega

lemma finalize_cum_step {pdf_list : List PDFFun} (hnn : NonnegPDFs pdf_list)
    {i : ℕ} (hi : i ≤ 254) :
    (finalize pdf_list).cumFreqAt (i + 1) =
      (finalize pdf_list).cumFreqAt i + (finalize pdf_list).c_freq i := by
  have hle := finalize_freq_sum_le hnn
  rw [finalize_cumFreqAt_of_sum_le hle (show i + 1 < 256 by omega),
    finalize_cumFreqAt_of_sum_le hle (show i < 256 by omega),
    sum_take_succ _ i (by rw [finalize_freq_length]; omega)]
  rfl

lemma finalize_cum_mono {pdf_list : List PDFFun} (hnn : NonnegPDFs pdf_list)
    {i j : ℕ} (hij : i ≤ j) (hj : j < 256) :
    (finalize pdf_list).cumFreqAt i ≤ (finalize pdf_list).cumFreqAt j := by
  have hle := finalize_freq_sum_le hnn
  rw [finalize_cumFreqAt_of_sum_le hle (by omega : i < 256),
    finalize_cumFreqAt_of_sum_le hle hj]
  exact sum_take_mono _ hij

lemma finalize_cum_le_total {pdf_list : List PDFFun} (hnn : NonnegPDFs pdf_list)
    {j : ℕ} (hj : j < 256) :
    (finalize pdf_list).cumFreqAt j ≤ (finalize pdf_list).total_freq := by
  have hle := finalize_freq_sum_le hnn
  rw [finalize_cumFreqAt_of_sum_le hle hj, finalize_total_freq_of_sum_le hle]
  exact sum_take_le_sum _ _

/-! ## Binary search lemmas -/

/-- The loop returns `i` whenever the comparisons made on `(left, right]`
characterize `i` exactly: `cum_freq[j] ≤ rfreq` iff `j ≤ i`. -/
lemma findIndexLoop_fst (q : QuantizedPDFSet) (rfreq i : ℕ) :
    ∀ (d left right : ℕ), right - left ≤ d → left ≤ i → i ≤ right →
      (∀ j, left < j → j ≤ right → (q.cumFreqAt j ≤ rfreq ↔ j ≤ i)) →
      (findIndexLoop q rfreq left right).1 = i := by
  intro d
  induction d with
  | zero =>
    intro left right h1 h2 h3 _
    rw [findIndexLoop, if_neg (by omega : ¬ left < right)]
    omega
  | succ d ih =>
    intro left right h1 h2 h3 H
    by_cases hlr : left < right
    · rw [findIndexLoop, if_pos hlr]
      have hmid1 : left ≤ (left + right) / 2 := by omega
      have hmid2 : (left + right) / 2 < right := by omega
      by_cases hc : q.cumFreqAt ((left + right) / 2 + 1) ≤ rfreq
      · have hile : (left + right) / 2 + 1 ≤ i :=
          (H _ (by omega) (by omega)).mp hc
        simp only [hc, if_pos]
        exact ih ((left + right) / 2 + 1) right (by omega) hile h3
          (fun j hj1 hj2 => H j (by omega) hj2)
      · have hige : i ≤ (left + right) / 2 := by
          by_contra hcon
          exact hc ((H _ (by omega) (by omega)).mpr (by omega))
        simp only [hc, if_neg, if_false]
        exact ih left ((left + right) / 2) (by omega) h2 hige
          (fun j hj1 hj2 => H j hj1 (by omega))
    · rw [findIndexLoop, if_neg hlr]
      omega

/-- The probe list: at most `n` probes when the interval has fewer than
`2^n` candidates, every probe strictly inside `(left, right]`. -/
lemma findIndexLoop_probes (q : QuantizedPDFSet) (rfreq : ℕ) :
    ∀ (n left right : ℕ), right - left < 2 ^ n →
      (findIndexLoop q rfreq left right).2.length ≤ n ∧
      (∀ m ∈ (findIndexLoop q rfreq left right).2, left + 1 ≤ m ∧ m ≤ right) := by
  intro n
  induction n with
  | zero =>
    intro left right h
    rw [findIndexLoop, if_neg (by simp at h; omega : ¬ left < right)]
    simp
  | succ n ih =>
    intro left right h
    by_cases hlr : left < right
    · rw [findIndexLoop, if_pos hlr]
      have hpow : (2 : ℕ) ^ (n + 1) = 2 ^ n + 2 ^ n := by
        rw [pow_succ]
        omega
      have hmid1 : left ≤ (left + right) / 2 := by omega
      have hmid2 : (left + right) / 2 < right := by omega
      by_cases hc : q.cumFreqAt ((left + right) / 2 + 1) ≤ rfreq
      · simp only [hc, if_pos]
        obtain ⟨hlen, hmem⟩ := ih ((left + right) / 2 + 1) right (by omega)
        refine ⟨?_, ?_⟩
        · simpa using hlen
        · intro m hm
          rcases List.mem_cons.mp (by simpa using hm) with rfl | hm'
          · omega
          · have := hmem m hm'
            omega
      · simp only [hc, if_neg, if_false]
        obtain ⟨hlen, hmem⟩ := ih left ((left + right) / 2) (by omega)
        refine ⟨?_, ?_⟩
        · simpa using hlen
        · intro m hm
          rcases List.mem_cons.mp (by simpa using hm) with rfl | hm'
          · omega
          · have := hmem m hm'
            omega
    · rw [findIndexLoop, if_neg hlr]
      simp

/-! ## The uniform table -/

/-- When every symbol quantizes to a count of 1 the table is uniform:
counts all 1, cumulative table `0,1,...,255`, total 256. -/
lemma finalize_uniform {pdf_list : List PDFFun}
    (h : ∀ x < 256, quantizedCount pdf_list x = 1) :
    (∀ i < 256, (finalize pdf_list).c_freq i = 1) ∧
    (∀ i < 256, (finalize pdf_list).cumFreqAt i = i) ∧
    (finalize pdf_list).total_freq = 256 := by
  have hsum : (finalize pdf_list).freq.sum = 256 := by
    rw [finalize_freq_sum, sum_map_range_one h]
  have hle : (finalize pdf_list).freq.sum ≤ 4294967295 := by omega
  have hcf : ∀ i < 256, (finalize pdf_list).c_freq i = 1 := by
    intro i hi
    rw [finalize_c_freq hi]
    exact h i hi
  have htake : ∀ i, i ≤ 256 → ((finalize pdf_list).freq.take i).sum = i := by
    intro i
    induction i with
    | zero => intro _; rfl
    | succ m ih =>
      intro hm
      rw [sum_take_succ _ m (by rw [finalize_freq_length]; omega), ih (by omega)]
      have := hcf m (by omega)
      rw [QuantizedPDFSet.c_freq] at this
      omega
  refine ⟨hcf, ?_, ?_⟩
  · intro i hi
    rw [finalize_cumFreqAt_of_sum_le hle hi, htake i (by omega)]
  · rw [finalize_total_freq_of_sum_le hle, hsum]

/-! ## Concrete inputs -/

lemma sumWeights_of_all_zero {pdf_list : List PDFFun}
    (h : ∀ p ∈ pdf_list, ∀ y, p y = F64.fin 0) (x : ℕ) :
    sumWeights pdf_list x = F64.fin 0 := by
  rw [sumWeights]
  have key : ∀ (l : List PDFFun) (c : ℚ), (∀ p ∈ l, ∀ y, p y = F64.fin 0) →
      l.foldl (fun acc p => acc.add (p x)) (F64.fin c) = F64.fin c := by
    intro l
    induction l with
    | nil => intro c _; rfl
    | cons p l ih =>
      intro c hl
      rw [List.foldl_cons, hl p (List.mem_cons_self p l) x, F64.add_fin_fin, add_zero]
      exact ih c (fun q hq y => hl q (List.mem_cons_of_mem _ hq) y)
  exact key pdf_list 0 h

lemma totFreqSrc_of_all_zero {pdf_list : List PDFFun}
    (h : ∀ p ∈ pdf_list, ∀ y, p y = F64.fin 0) :
    totFreqSrc pdf_list = F64.fin 0 := by
  rw [totFreqSrc]
  have hall : ∀ a ∈ freqSrc pdf_list, ∃ v : ℚ, a = F64.fin v := by
    intro a ha
    obtain ⟨x, _, rfl⟩ := List.mem_map.mp ha
    exact ⟨0, sumWeights_of_all_zero h x⟩
  rw [foldl_add_of_all_fin _ 0 hall]
  have hz : (freqSrc pdf_list).map F64.val = (freqSrc pdf_list).map (fun _ => (0 : ℚ)) := by
    apply List.map_congr_left
    intro a ha
    obtain ⟨x, _, rfl⟩ := List.mem_map.mp ha
    rw [sumWeights_of_all_zero h x, F64.val_fin]
  rw [hz]
  simp

lemma zeroPdf_all_zero : ∀ p ∈ [zeroPdf], ∀ y, p y = F64.fin 0 := by
  intro p hp y
  rcases List.mem_singleton.mp hp with rfl
  rfl

lemma nil_all_zero : ∀ p ∈ ([] : List PDFFun), ∀ y, p y = F64.fin 0 := by
  intro p hp
  cases hp

lemma nonneg_nil : NonnegPDFs [] := by
  intro p hp
  cases hp

lemma nonneg_pointMass : NonnegPDFs [pointMassPdf] := by
  intro p hp x
  rcases List.mem_singleton.mp hp with rfl
  rw [pointMassPdf]
  by_cases hx : x = 0 <;> simp [hx, F64.nonneg_fin]

lemma sumWeights_pointMass (x : ℕ) :
    sumWeights [pointMassPdf] x = if x = 0 then F64.fin 1 else F64.fin 0 := by
  have h : sumWeights [pointMassPdf] x = (F64.fin 0).add (pointMassPdf x) := rfl
  rw [h, pointMassPdf]
  by_cases hx : x = 0 <;> simp [hx, F64.add_fin_fin]

lemma totFreqSrc_pointMass : totFreqSrc [pointMassPdf] = F64.fin 1 := by
  rw [totFreqSrc]
  have hall : ∀ a ∈ freqSrc [pointMassPdf], ∃ v : ℚ, a = F64.fin v := by
    intro a ha
    obtain ⟨x, _, rfl⟩ := List.mem_map.mp ha
    rw [sumWeights_pointMass]
    by_cases hx : x = 0 <;> simp [hx]
  rw [foldl_add_of_all_fin _ 0 hall]
  have hmap : (freqSrc [pointMassPdf]).map F64.val =
      (List.range 256).map (fun x => if x = 0 then (1 : ℚ) else 0) := by
    rw [freqSrc, List.map_map]
    apply List.map_congr_left
    intro x _
    simp only [Function.comp]
    rw [sumWeights_pointMass]
    by_cases hx : x = 0 <;> simp [hx, F64.val_fin]
  rw [hmap, List.range_succ_eq_map]
  simp only [List.map_cons, List.sum_cons, List.map_map]
  have htail : ((List.range 255).map
      ((fun x => if x = 0 then (1 : ℚ) else 0) ∘ Nat.succ)).sum = 0 := by
    apply List.sum_eq_zero
    intro q hq
    obtain ⟨k, _, rfl⟩ := List.mem_map.mp hq
    simp [Function.comp]
  rw [htail]
  norm_num

lemma quantizedCount_pointMass_zero :
    quantizedCount [pointMassPdf] 0 = MAX_TOT_FREQ + 1 := by
  rw [quantizedCount, totFreqSrc_pointMass, sumWeights_pointMass, if_pos rfl]
  rw [quantize_fin_pos (by norm_num) (by norm_num) (by norm_num)]
  norm_num

lemma quantizedCount_pointMass_pos {x : ℕ} (hx : x ≠ 0) :
    quantizedCount [pointMassPdf] x = 1 := by
  rw [quantizedCount, totFreqSrc_pointMass, sumWeights_pointMass, if_neg hx]
  rw [quantize_fin_pos (le_refl (0 : ℚ)) (by norm_num) (by norm_num)]
  norm_num

lemma finalize_pointMass_freq_sum :
    (finalize [pointMassPdf]).freq.sum = 4294967295 := by
  rw [finalize_freq_sum, List.range_succ_eq_map]
  simp only [List.map_cons, List.sum_cons, List.map_map]
  rw [quantizedCount_pointMass_zero]
  have htail : ((List.range 255).map (quantizedCount [pointMassPdf] ∘ Nat.succ)).sum
      = 255 := by
    have hone : ∀ y ∈ List.range 255, (quantizedCount [pointMassPdf] ∘ Nat.succ) y = 1 := by
      intro y _
      simp only [Function.comp]
      exact quantizedCount_pointMass_pos (Nat.succ_ne_zero y)
    rw [List.map_congr_left hone, sum_map_one, List.length_range]
  rw [htail, MAX_TOT_FREQ_eq]

lemma finalize_pointMass_total :
    (finalize [pointMassPdf]).total_freq = 4294967295 := by
  rw [finalize_total_freq_of_sum_le (by rw [finalize_pointMass_freq_sum]),
    finalize_pointMass_freq_sum]

lemma foldl_add_inf_eq : ∀ (l : List F64),
    (∀ a ∈ l, a ≠ F64.nan ∧ a ≠ F64.neginf) → l.foldl F64.add .inf = .inf := by
  intro l
  induction l with
  | nil => intro _; rfl
  | cons a l ih =>
    intro h
    obtain ⟨h1, h2⟩ := h a (List.mem_cons_self a l)
    have hstep : F64.add .inf a = .inf := by
      cases a with
      | nan => exact absurd rfl h1
      | neginf => exact absurd rfl h2
      | inf => rfl
      | fin v => rfl
    rw [List.foldl_cons, hstep]
    exact ih (fun b hb => h b (List.mem_cons_of_mem _ hb))

lemma sumWeights_infPdf (x : ℕ) :
    sumWeights [infPdf] x = if x = 0 then F64.inf else F64.fin 0 := by
  have h : sumWeights [infPdf] x = (F64.fin 0).add (infPdf x) := rfl
  rw [h, infPdf]
  by_cases hx : x = 0 <;> simp [hx, F64.add]

lemma totFreqSrc_infPdf : totFreqSrc [infPdf] = F64.inf := by
  rw [totFreqSrc, freqSrc, List.range_succ_eq_map]
  simp only [List.map_cons, List.foldl_cons, List.map_map]
  rw [sumWeights_infPdf, if_pos rfl]
  have hacc : (F64.fin 0).add F64.inf = F64.inf := rfl
  rw [hacc]
  apply foldl_add_inf_eq
  intro a ha
  obtain ⟨k, _, rfl⟩ := List.mem_map.mp ha
  simp only [Function.comp]
  rw [sumWeights_infPdf, if_neg (Nat.succ_ne_zero k)]
  exact ⟨fun hcon => F64.noConfusion hcon, fun hcon => F64.noConfusion hcon⟩

lemma nonneg_zeroPdf : NonnegPDFs [zeroPdf] := by
  intro p hp x
  rcases List.mem_singleton.mp hp with rfl
  exact F64.nonneg_fin.mpr (le_refl 0)

/-! ## Claims -/

/-- C1: for every table finalized from densities satisfying the
non-negativity contract, every symbol `i` in `0..255` and every residual
`r` with `cumulative(i) ≤ r < cumulative(i) + count(i)`, the binary search
`find_index` returns exactly `i`. -/
theorem C1_find_index_inverts (pdf_list : List PDFFun) (hnn : NonnegPDFs pdf_list)
    (i r : ℕ) (hi : i ≤ 255)
    (hlo : (finalize pdf_list).cumFreqAt i ≤ r)
    (hhi : r < (finalize pdf_list).cumFreqAt i + (finalize pdf_list).c_freq i) :
    find_index (finalize pdf_list) r = i := by
  rw [find_index]
  apply findIndexLoop_fst _ _ _ 255 0 255 (by omega) (by omega) hi
  intro j hj1 hj2
  constructor
  · intro hcj
    by_contra hcon
    push_neg at hcon
    have hstep := finalize_cum_step hnn (show i ≤ 254 by omega)
    have hmono := finalize_cum_mono hnn (show i + 1 ≤ j by omega)
      (show j < 256 by omega)
    omega
  · intro hji
    have hmono := finalize_cum_mono hnn hji (show i < 256 by omega)
    omega

/-- C1 witness: on the table finalized from an empty density list
(the uniform table), residual 5 locates symbol 5. -/
theorem C1_witness : find_index (finalize []) 5 = 5 := by
  have hq : ∀ x < 256, quantizedCount ([] : List PDFFun) x = 1 := fun x hx =>
    quantizedCount_one_of_tot_zero nonneg_nil (totFreqSrc_of_all_zero nil_all_zero) hx
  obtain ⟨hc, hcum, _⟩ := finalize_uniform hq
  exact C1_find_index_inverts [] nonneg_nil 5 5 (by omega)
    (by have h1 := hcum 5 (by omega); omega)
    (by have h1 := hcum 5 (by omega); have h2 := hc 5 (by omega); omega)

/-- C2: every count of a table finalized from densities satisfying the
non-negativity contract is at least 1, however skewed the weights are. -/
theorem C2_counts_positive (pdf_list : List PDFFun) (hnn : NonnegPDFs pdf_list)
    (i : ℕ) (hi : i ≤ 255) : 1 ≤ (finalize pdf_list).c_freq i := by
  rw [finalize_c_freq (show i < 256 by omega)]
  exact (quantizedCount_bounds hnn (show i < 256 by omega)).1

/-- C2 witness: the table of the empty density list has `count(0) ≥ 1`. -/
theorem C2_witness : 1 ≤ (finalize []).c_freq 0 :=
  C2_counts_positive [] nonneg_nil 0 (by omega)

/-- C3 counterexample: for the point-mass density, `total_freq` equals
`u32::MAX = 4294967295` exactly, so it is neither strictly below
`MAX_UINT32` nor below `0.9999999 × MAX_UINT32`. -/
theorem C3_counterexample :
    ¬ ((finalize [pointMassPdf]).total_freq < 4294967295 ∧
      ((finalize [pointMassPdf]).total_freq : ℚ) <
        (9999999 / 10000000) * 4294967295) := by
  rw [finalize_pointMass_total]
  norm_num

/-- C3 amended: the total of a table finalized from densities satisfying
the non-negativity contract never exceeds `u32::MAX` (quantization cannot
overflow the `u32` width), but equality `total() = MAX_UINT32` can occur. -/
theorem C3_amended_total_le (pdf_list : List PDFFun) (hnn : NonnegPDFs pdf_list) :
    (finalize pdf_list).total_freq ≤ 4294967295 := by
  rw [finalize_total_freq_of_sum_le (finalize_freq_sum_le hnn)]
  exact finalize_freq_sum_le hnn

/-- C3 witness: the total of the empty-list table is within the `u32` width. -/
theorem C3_witness : (finalize []).total_freq ≤ 4294967295 :=
  C3_amended_total_le [] nonneg_nil

/-- C4 counterexample: with a density that is zero everywhere the aggregate
weight is exactly 0, yet `finalize` does not fail: it produces the uniform
table (every count 1, total 256). -/
theorem C4_counterexample :
    totFreqSrc [zeroPdf] = F64.fin 0 ∧
    (finalize [zeroPdf]).total_freq = 256 ∧
    (finalize [zeroPdf]).c_freq 0 = 1 := by
  have htot := totFreqSrc_of_all_zero zeroPdf_all_zero
  obtain ⟨hc, _, htotal⟩ := finalize_uniform
    (fun x hx => quantizedCount_one_of_tot_zero nonneg_zeroPdf htot hx)
  exact ⟨htot, htotal, hc 0 (by omega)⟩

/-- C4 amended: when the aggregate weight is non-positive (hence zero, for
densities satisfying the non-negativity contract), `finalize` does not
fail; the `0/0 → NaN → 0` cast path yields the uniform table with every
count 1 and total 256. -/
theorem C4_amended_degenerate (pdf_list : List PDFFun) (hnn : NonnegPDFs pdf_list)
    (t : ℚ) (htot : totFreqSrc pdf_list = F64.fin t) (ht : t ≤ 0) :
    (∀ i < 256, (finalize pdf_list).c_freq i = 1) ∧
    (finalize pdf_list).total_freq = 256 := by
  have ht0 : 0 ≤ t := by
    have h := totFreqSrc_nonneg hnn
    rw [htot] at h
    exact F64.nonneg_fin.mp h
  have hz : t = 0 := le_antisymm ht ht0
  subst hz
  obtain ⟨hc, _, htotal⟩ := finalize_uniform
    (fun x hx => quantizedCount_one_of_tot_zero hnn htot hx)
  exact ⟨hc, htotal⟩

/-- C4 witness: the zero density set instantiates the amended statement. -/
theorem C4_witness :
    (finalize [zeroPdf]).c_freq 5 = 1 ∧
    (finalize [zeroPdf]).total_freq = 256 := by
  obtain ⟨hc, htotal⟩ := C4_amended_degenerate [zeroPdf] nonneg_zeroPdf 0
    (totFreqSrc_of_all_zero zeroPdf_all_zero) (le_refl 0)
  exact ⟨hc 5 (by omega), htotal⟩

/-- C5 counterexample: with a density whose weight at symbol 0 is `+∞` the
total weight is `+∞` (non-finite), yet `finalize` does not reject it: it
produces the uniform table. -/
theorem C5_counterexample :
    totFreqSrc [infPdf] = F64.inf ∧
    (finalize [infPdf]).total_freq = 256 ∧
    (finalize [infPdf]).c_freq 0 = 1 := by
  obtain ⟨hc, _, htotal⟩ := finalize_uniform
    (fun x hx => quantizedCount_one_of_tot_nonfin
      (Or.inr (Or.inl totFreqSrc_infPdf)) x)
  exact ⟨totFreqSrc_infPdf, htotal, hc 0 (by omega)⟩

/-- C5 amended: when the aggregated total weight is non-finite
(NaN or ±∞), `finalize` does not fail with any error; the NaN/∞ cast rules
send every ratio to 0 and the table degenerates to all counts 1,
total 256. -/
theorem C5_amended_nonfinite (pdf_list : List PDFFun)
    (htot : totFreqSrc pdf_list = F64.nan ∨ totFreqSrc pdf_list = F64.inf ∨
      totFreqSrc pdf_list = F64.neginf) :
    (∀ i < 256, (finalize pdf_list).c_freq i = 1) ∧
    (finalize pdf_list).total_freq = 256 := by
  obtain ⟨hc, _, htotal⟩ := finalize_uniform
    (fun x hx => quantizedCount_one_of_tot_nonfin htot x)
  exact ⟨hc, htotal⟩

/-- C5 witness: the `+∞` density instantiates the amended statement. -/
theorem C5_witness :
    (finalize [infPdf]).c_freq 7 = 1 ∧
    (finalize [infPdf]).total_freq = 256 := by
  obtain ⟨hc, htotal⟩ :=
    C5_amended_nonfinite [infPdf] (Or.inr (Or.inl totFreqSrc_infPdf))
  exact ⟨hc 7 (by omega), htotal⟩

/-- C6 counterexample: on the uniform table of the empty density list
(total 256), calling `find_index` with residual `300 ≥ total()` raises no
error: it returns the symbol 255. -/
theorem C6_counterexample :
    (finalize []).total_freq = 256 ∧ find_index (finalize []) 300 = 255 := by
  have hq : ∀ x < 256, quantizedCount ([] : List PDFFun) x = 1 := fun x hx =>
    quantizedCount_one_of_tot_zero nonneg_nil (totFreqSrc_of_all_zero nil_all_zero) hx
  obtain ⟨_, _, htot⟩ := finalize_uniform hq
  refine ⟨htot, ?_⟩
  rw [find_index]
  apply findIndexLoop_fst _ _ _ 255 0 255 (by omega) (by omega) (by omega)
  intro j hj1 hj2
  constructor
  · intro _
    omega
  · intro _
    have h1 := finalize_cum_le_total nonneg_nil (show j < 256 by omega)
    omega

/-- C6 amended: `find_index` performs no residual validation; for any
residual at or above `total()` the binary search runs to completion and
returns symbol 255 instead of raising an error. -/
theorem C6_amended_returns_255 (pdf_list : List PDFFun) (hnn : NonnegPDFs pdf_list)
    (r : ℕ) (hr : (finalize pdf_list).total_freq ≤ r) :
    find_index (finalize pdf_list) r = 255 := by
  rw [find_index]
  apply findIndexLoop_fst _ _ _ 255 0 255 (by omega) (by omega) (by omega)
  intro j hj1 hj2
  constructor
  · intro _
    omega
  · intro _
    exact le_trans (le_trans (finalize_cum_le_total hnn (show j < 256 by omega)) hr)
      (le_refl r)

/-- C6 witness: the amended statement at residual 1000 on the zero-density
table. -/
theorem C6_witness : find_index (finalize [zeroPdf]) 1000 = 255 := by
  apply C6_amended_returns_255 [zeroPdf] nonneg_zeroPdf 1000
  obtain ⟨_, _, htotal⟩ := finalize_uniform
    (fun x hx => quantizedCount_one_of_tot_zero nonneg_zeroPdf
      (totFreqSrc_of_all_zero zeroPdf_all_zero) hx)
  omega

/-- C7: for a table finalized from densities satisfying the non-negativity
contract, `cumulative(0) = 0`, `cumulative(i+1) = cumulative(i) + count(i)`
for every `i ≤ 254` (an exact prefix sum with no drift), and `total()`
equals the sum of all 256 counts. -/
theorem C7_prefix_invariant (pdf_list : List PDFFun) (hnn : NonnegPDFs pdf_list) :
    (finalize pdf_list).cumFreqAt 0 = 0 ∧
    (∀ i ≤ 254, (finalize pdf_list).cumFreqAt (i + 1) =
      (finalize pdf_list).cumFreqAt i + (finalize pdf_list).c_freq i) ∧
    (finalize pdf_list).total_freq =
      ((List.range 256).map (finalize pdf_list).c_freq).sum := by
  have hle := finalize_freq_sum_le hnn
  refine ⟨?_, fun i hi => finalize_cum_step hnn hi, ?_⟩
  · rw [finalize_cumFreqAt_of_sum_le hle (by omega)]
    rfl
  · rw [finalize_total_freq_of_sum_le hle, finalize_freq_sum]
    have hmap : (List.range 256).map (finalize pdf_list).c_freq =
        (List.range 256).map (quantizedCount pdf_list) :=
      List.map_congr_left (fun x hx => finalize_c_freq (List.mem_range.mp hx))
    rw [hmap]

/-- C7 witness: the prefix invariant instantiated on the empty density
list, at step 0. -/
theorem C7_witness :
    (finalize []).cumFreqAt 0 = 0 ∧
    (finalize []).cumFreqAt 1 = (finalize []).cumFreqAt 0 + (finalize []).c_freq 0 ∧
    (finalize []).total_freq = ((List.range 256).map (finalize []).c_freq).sum := by
  obtain ⟨h0, hstep, htot⟩ := C7_prefix_invariant [] nonneg_nil
  exact ⟨h0, hstep 0 (by omega), htot⟩

/-- C8: for every table and every residual, the binary search probes at
most 8 indices, and each probed index `mid + 1` lies in `[1, 255]`, so no
out-of-range access of `cum_freq` occurs. -/
theorem C8_probes_in_range (q : QuantizedPDFSet) (rfreq : ℕ) :
    (findIndexProbes q rfreq).length ≤ 8 ∧
    ∀ m ∈ findIndexProbes q rfreq, 1 ≤ m ∧ m ≤ 255 := by
  rw [findIndexProbes]
  obtain ⟨h1, h2⟩ := findIndexLoop_probes q rfreq 8 0 255 (by norm_num)
  exact ⟨h1, fun m hm => h2 m hm⟩

/-- C10: for a density set whose functions are zero everywhere (including
the empty set), `finalize` does not fail: the aggregate total is exactly 0,
and the returned table is uniform with `count(i) = 1` for every symbol and
`total() = 256`. -/
theorem C10_all_zero_uniform (pdf_list : List PDFFun)
    (h : ∀ p ∈ pdf_list, ∀ y, p y = F64.fin 0) :
    totFreqSrc pdf_list = F64.fin 0 ∧
    (∀ i < 256, (finalize pdf_list).c_freq i = 1) ∧
    (finalize pdf_list).total_freq = 256 := by
  have htot := totFreqSrc_of_all_zero h
  have hnn : NonnegPDFs pdf_list := by
    intro p hp x
    rw [h p hp x]
    exact F64.nonneg_fin.mpr (le_refl 0)
  obtain ⟨hc, _, htotal⟩ := finalize_uniform
    (fun x hx => quantizedCount_one_of_tot_zero hnn htot hx)
  exact ⟨htot, hc, htotal⟩

/-- C10 witness: the empty density set instantiates the statement. -/
theorem C10_witness :
    totFreqSrc [] = F64.fin 0 ∧
    (finalize []).c_freq 0 = 1 ∧
    (finalize []).total_freq = 256 := by
  obtain ⟨htot, hc, htotal⟩ := C10_all_zero_uniform [] nil_all_zero
  exact ⟨htot, hc 0 (by omega), htotal⟩
